import Mathlib

/-!
Verification development for a single-asset tick-level backtesting toolkit.

The Python sources are shallowly embedded:
* prices, cash and timestamps are modelled as rationals (`ℚ`), share counts
  as integers (`ℤ`);
* the mutable `Backtester` object becomes a record threaded explicitly
  through `run`;
* Python's `math.floor` is `Int.floor`, truthiness of an `int` is `≠ 0`;
* fallible constructors / validators return `Except String _`;
* a pandas `NaN` cell is modelled as `Option.none`.
-/

namespace Dobyte

/-! ## Performance metrics library (`src/alphas/performance.py`) -/

/-- Seconds per (Julian) year, `365.25 * 24 * 60 * 60`. -/
def secondsPerYear : ℚ := (36525 : ℚ) / 100 * 24 * 60 * 60

/-- Embeds `estimate_annualization_factor_unix(timestamps)`: raises on fewer than two
timestamps or a non-positive first-to-last span, otherwise returns
`(len - 1) / duration * seconds_per_year`.  Timestamps are modelled in
seconds, so the Python `.total_seconds()` of a difference is plain
subtraction. -/
def estimate_annualization_factor_unix (timestamps : List ℚ) : Except String ℚ :=
  if timestamps.length < 2 then
    .error "Need at least 2 timestamps to estimate frequency."
  else
    let total_periods : ℚ := (timestamps.length - 1 : ℕ)
    let duration_sec : ℚ := timestamps.getD (timestamps.length - 1) 0 - timestamps.getD 0 0
    if duration_sec ≤ 0 then
      .error "Timestamps must be increasing and span > 0 time."
    else
      .ok (total_periods / duration_sec * secondsPerYear)

/-- Embeds `compute_effective_period_count(timestamps, target_period_length)`.
The pandas duration string (for example `"1s"`) is modelled by its value in
seconds (`periodSec`); the engine always passes `"1s"`, i.e. `1`. -/
def compute_effective_period_count (timestamps : List ℚ) (periodSec : ℚ) :
    Except String ℚ :=
  if timestamps.length < 2 then
    .error "Need at least 2 timestamps."
  else
    let total_duration : ℚ := timestamps.getD (timestamps.length - 1) 0 - timestamps.getD 0 0
    .ok (total_duration / periodSec)

/-- Embeds `np.cumprod` seeded with an accumulator. -/
def cumprodFrom (acc : ℚ) : List ℚ → List ℚ
  | [] => []
  | x :: xs => (acc * x) :: cumprodFrom (acc * x) xs

/-- Embeds `np.cumprod` of a 1-D array. -/
def cumprod (l : List ℚ) : List ℚ := cumprodFrom 1 l

/-- Embeds `np.maximum.accumulate` continued from a running maximum `acc`. -/
def runmaxFrom (acc : ℚ) : List ℚ → List ℚ
  | [] => []
  | x :: xs => max acc x :: runmaxFrom (max acc x) xs

/-- Embeds `np.maximum.accumulate` of a 1-D array. -/
def runningMax : List ℚ → List ℚ
  | [] => []
  | x :: xs => x :: runmaxFrom x xs

/-- Minimum of a 1-D array (`np.nanmin`; numpy raises on an empty array, here
the empty case returns a junk `0` and is never relied upon). -/
def listMin : List ℚ → ℚ
  | [] => 0
  | [x] => x
  | x :: y :: t => min x (listMin (y :: t))

/-- Embeds `max_drawdown(returns)`: cumulative product of `1 + r`, running peak,
drawdown `(cumulative - peak) / peak`, negated minimum. -/
def max_drawdown (returns : List ℚ) : ℚ :=
  let cumulative := cumprod (returns.map (fun r => 1 + r))
  let peak := runningMax cumulative
  let drawdown := List.zipWith (fun c p => (c - p) / p) cumulative peak
  Neg.neg (listMin drawdown)

/-- Embeds `hit_rate(returns)`: `np.mean(returns > 0)`.  A `NaN` entry (`none`)
compares as not-greater-than-zero but still counts in the denominator; the
mean of an empty array is `NaN` (`none`). -/
def hit_rate (returns : List (Option ℚ)) : Option ℚ :=
  if returns.length = 0 then none
  else
    some ((returns.countP (fun o => match o with
      | some r => decide (0 < r)
      | none => false) : ℕ) / (returns.length : ℚ))

/-- Modelled from the spec: `long_only_hitrate` is imported by
`backtest.py` from the performance module but its definition is absent from
the sources; per the spec it is the long-only hit rate, the "fraction of
periods with strictly positive return (same formula [as `hit_rate`], applied
to the equity-curve return series)". -/
def long_only_hitrate (returns : List (Option ℚ)) : Option ℚ :=
  hit_rate returns

/-! ## Strategy layer (`src/alphas/alpha.py`) -/

/-- A strategy decision function: `decide(i, ts, bid, ask, cash, shares)`
returning an arbitrary string (the engine only reacts to `"buy"`/`"sell"`). -/
def Strategy : Type :=
  ℕ → List ℚ → List ℚ → List ℚ → ℚ → ℤ → String

/-- The `future_lookup` of `FutureLookupStrategy` / `NthValueStrategy`:
`(bid[j], ask[j])` with `j = min(i + offset, len(bid) - 1)`. -/
def offsetLookup (offset : ℕ) (i : ℕ) (bid ask : List ℚ) : ℚ × ℚ :=
  let future_idx := min (i + offset) (bid.length - 1)
  (bid.getD future_idx 0, ask.getD future_idx 0)

/-- The shared decision template of `FutureLookupStrategy.decide`,
parameterised by the hook `future_lookup`.  Python's `if shares and ...`
tests integer truthiness, i.e. `shares ≠ 0`. -/
def decideWith (futureLookup : ℕ → List ℚ → List ℚ → ℚ × ℚ)
    (i : ℕ) (_ts : List ℚ) (bid ask : List ℚ) (cash : ℚ) (shares : ℤ) : String :=
  let fut := futureLookup i bid ask
  if fut.1 > ask.getD i 0 ∧ cash ≥ ask.getD i 0 then "buy"
  else if shares ≠ 0 ∧ fut.2 < bid.getD i 0 then "sell"
  else "hold"

/-- Embeds `FutureLookupStrategy` (offset hard-coded to 1). -/
def futureLookupStrategy : Strategy :=
  decideWith (offsetLookup 1)

/-- Embeds `NthValueStrategy(offset)` (default 5). -/
def nthValueStrategy (offset : ℕ) : Strategy :=
  decideWith (offsetLookup offset)

/-- Embeds `AggregatedFutureStrategy.future_lookup` with the constructor-clamped
window `max 1 window` and aggregation function `agg_fn`.  `bid[-1]` is the
last element of a (nonempty, in every use) list. -/
def aggFutureLookup (window : ℤ) (agg_fn : List ℚ → ℚ)
    (i : ℕ) (bid ask : List ℚ) : ℚ × ℚ :=
  let w : ℕ := (max 1 window).toNat
  let start := i + 1
  let stop := min (i + 1 + w) bid.length
  if start ≥ stop then
    (bid.getD (bid.length - 1) 0, ask.getD (ask.length - 1) 0)
  else
    ((bid.drop start).take (stop - start) |> agg_fn,
     (ask.drop start).take (stop - start) |> agg_fn)

/-- Embeds `AggregatedFutureStrategy(window, agg_fn)` (defaults: 3, `sum`). -/
def aggregatedFutureStrategy (window : ℤ) (agg_fn : List ℚ → ℚ) : Strategy :=
  decideWith (aggFutureLookup window agg_fn)

/-! ## Execution engine (`src/alphas/backtest.py`) -/

/-- Embeds `Backtester.DEFAULT_STAT_MAP`. -/
def DEFAULT_STAT_MAP : List (String × String) :=
  [("ann_ret", "Annualized return (linear)"),
   ("ann_turnover_bil", "Annualized turnover (billion times)"),
   ("max_drawdown", "Max drawdown"),
   ("hitrate", "Hit rate"),
   ("efficiency", "Portfolio efficiency"),
   ("ann_sharpe", "Annualized Sharpe"),
   ("sortino", "Sortino ratio"),
   ("calmar", "Calmar ratio")]

/-- The `__init__` merge: copy the user map, then `setdefault` every default
pair (insertion order: user pairs first, then the missing defaults). -/
def mergeStatMap (user : List (String × String)) : List (String × String) :=
  user ++ DEFAULT_STAT_MAP.filter (fun kv => ¬ user.any (fun u => u.1 = kv.1))

/-- The engine object: the immutable inputs plus the mutated ledger and
history fields, threaded explicitly through `run`. -/
structure Backtester where
  ts : List ℚ
  bid : List ℚ
  ask : List ℚ
  strategy : Strategy
  cash : ℚ
  shares : ℤ
  trades : List (String × ℚ × ℚ × ℤ)
  posHist : List ℤ
  cashHist : List ℚ
  statNameMap : List (String × String)

/-- Embeds `Backtester.__init__`: raises `ValueError` unless the three series share
one length; otherwise initialises the ledger at `initial_cash` / zero shares
with empty histories and the merged stat-name map. -/
def mkBacktester (timestamps bids asks : List ℚ) (strategy : Strategy)
    (initial_cash : ℚ) (stat_name_map : List (String × String)) :
    Except String Backtester :=
  if ¬ (timestamps.length = bids.length ∧ bids.length = asks.length) then
    .error "timestamps, bids and asks must be same length"
  else
    .ok { ts := timestamps, bid := bids, ask := asks, strategy := strategy,
          cash := initial_cash, shares := 0, trades := [], posHist := [],
          cashHist := [], statNameMap := mergeStatMap stat_name_map }

/-- Embeds `Backtester._execute(side, i)`: price from ask (buy) or bid (sell),
quantity `floor(cash / price)` (buy) or the full share count (sell); a zero
quantity is a no-op, otherwise the ledger moves and a trade is recorded. -/
def Backtester.execute (B : Backtester) (side : String) (i : ℕ) : Backtester :=
  let price := if side = "buy" then B.ask.getD i 0 else B.bid.getD i 0
  let qty : ℤ := if side = "buy" then ⌊B.cash / price⌋ else B.shares
  if qty = 0 then B
  else if side = "buy" then
    { B with cash := B.cash - qty * price, shares := B.shares + qty,
             trades := B.trades ++ [(side, B.ts.getD i 0, price, qty)] }
  else
    { B with cash := B.cash + qty * price, shares := B.shares - qty,
             trades := B.trades ++ [(side, B.ts.getD i 0, price, qty)] }

/-- Embeds `Backtester._mark()`: append the current shares and cash to the
history series. -/
def Backtester.mark (B : Backtester) : Backtester :=
  { B with posHist := B.posHist ++ [B.shares], cashHist := B.cashHist ++ [B.cash] }

/-- One iteration of the `run` loop at bar `i`: ask the strategy, execute a
`"buy"`/`"sell"` answer, then mark. -/
def Backtester.step (B : Backtester) (i : ℕ) : Backtester :=
  let action := B.strategy i B.ts B.bid B.ask B.cash B.shares
  let B' := if action = "buy" ∨ action = "sell" then B.execute action i else B
  B'.mark

/-- The final-liquidation epilogue of `run`: if shares are nonzero
(Python truthiness), cash in the position at the last bid, record a
`"final_liq"` trade and zero the shares; then mark once more. -/
def Backtester.finalize (B : Backtester) : Backtester :=
  let B' :=
    if B.shares ≠ 0 then
      { B with cash := B.cash + B.shares * B.bid.getD (B.bid.length - 1) 0,
               trades := B.trades ++
                 [("final_liq", B.ts.getD (B.ts.length - 1) 0,
                   B.bid.getD (B.bid.length - 1) 0, B.shares)],
               shares := 0 }
    else B
  B'.mark

/-- Embeds `Backtester.run()`: the loop over bars `0 .. n-2` followed by final
liquidation; the Python method returns `self.cash`, i.e. `(run B).cash`. -/
def Backtester.run (B : Backtester) : Backtester :=
  ((List.range (B.bid.length - 1)).foldl Backtester.step B).finalize

/-- Three-way `zip` (as produced by Python's `zip` of three lists, which
truncates to the shortest). -/
def zipWith3 (f : ℤ → ℚ → ℚ → ℚ) : List ℤ → List ℚ → List ℚ → List ℚ
  | p :: ps, x :: xs, c :: cs => f p x c :: zipWith3 f ps xs cs
  | _, _, _ => []

/-- Embeds `Backtester.equity_curve()`: mark-to-market values
`positions[k] * bid[k] + cash_history[k]` over
`zip(pos_hist, bid[:len(pos_hist)], cash_hist)`. -/
def Backtester.equity_curve (B : Backtester) : List ℚ :=
  zipWith3 (fun p px c => p * px + c) B.posHist (B.bid.take B.posHist.length) B.cashHist

/-- Three-way `zip` producing optional values (for the weights series). -/
def zipWith3Opt (f : ℤ → ℚ → ℚ → Option ℚ) :
    List ℤ → List ℚ → List ℚ → List (Option ℚ)
  | p :: ps, x :: xs, c :: cs => f p x c :: zipWith3Opt f ps xs cs
  | _, _, _ => []

/-- Embeds `Backtester.weights()`: `(p*px) / (p*px + c)` when the denominator is
nonzero (Python truthiness of a float), else `NaN` (`none`). -/
def Backtester.weights (B : Backtester) : List (Option ℚ) :=
  zipWith3Opt
    (fun p px c => if p * px + c ≠ 0 then some ((p * px) / (p * px + c)) else none)
    B.posHist (B.bid.take B.posHist.length) B.cashHist

/-- Pandas `Series.pct_change()`: the first entry is `NaN`, entry `k ≥ 1` is
`curve[k] / curve[k-1] - 1`.  A zero previous value yields a non-finite
result in pandas; it is modelled as `none` and never hit by the engine
theorems (the equity curve is proved positive there). -/
def pct_change (curve : List ℚ) : List (Option ℚ) :=
  match curve with
  | [] => []
  | _ :: rest =>
      none :: List.zipWith
        (fun prev cur => if prev = 0 then none else some (cur / prev - 1))
        curve rest

/-- The `"Hit rate"` entry of `Backtester._compute_metrics()`:
`long_only_hitrate(equity_curve().pct_change())`. -/
def Backtester.hitRateMetric (B : Backtester) : Option ℚ :=
  long_only_hitrate (pct_change B.equity_curve)

/-! ## Stats views (`Backtester.stats`) -/

/-- The reverse map `self._desc_to_prog = {v: k for k, v in map.items()}`:
a Python dict comprehension keeps, for each descriptive value, the key of
the **last** pair carrying it. -/
def descToProg (m : List (String × String)) (d : String) : Option String :=
  (m.reverse.find? (fun kv => kv.2 = d)).map (fun kv => kv.1)

/-- The `prog_dict` comprehension of `Backtester.stats`: for each metric
`(desc, value)` whose descriptive key has a programmatic alias, the pair
`(alias, value)`. -/
def progDictOf (m : List (String × String)) (metrics : List (String × ℚ)) :
    List (String × ℚ) :=
  metrics.filterMap (fun kv => (descToProg m kv.1).map (fun p => (p, kv.2)))

/-- Result shape of `Backtester.stats`: a flat mapping (styles `"desc"` and
`"prog"`) or the `{"prog": _, "desc": _}` wrapper (style `"both"`). -/
inductive StatsView : Type
  | flat (d : List (String × ℚ)) : StatsView
  | both (prog desc : List (String × ℚ)) : StatsView
deriving DecidableEq

/-- The style dispatch of `Backtester.stats(style)`, with the metrics
dictionary `_compute_metrics()` passed explicitly (the numeric metric
values do not affect the dispatch; `float(v)` is the identity here). -/
def statsFrom (m : List (String × String)) (metrics : List (String × ℚ))
    (style : String) : Except String StatsView :=
  let desc_dict := metrics
  let prog_dict := progDictOf m desc_dict
  if style = "desc" then .ok (.flat desc_dict)
  else if style = "prog" then .ok (.flat prog_dict)
  else if style = "both" then .ok (.both prog_dict desc_dict)
  else .error "style must be 'desc', 'prog', or 'both'"

/-! ## Data loader (`src/data/make_dataset.py`) -/

/-- Embeds `load_data(filepath, top_n)` after JSON parsing: `ticks0`/`ticks1` are the
`ticks` arrays of instruments 0 and 1, each a list of
`(raw_timestamp, price)` pairs.  Raw timestamps are divided by `1e6`; a
positive `top_n` truncates all three outputs. -/
def load_data (ticks0 ticks1 : List (ℚ × ℚ)) (top_n : ℤ) :
    List ℚ × List ℚ × List ℚ :=
  let raw_ts := ticks0.map (fun t => t.1)
  let timestamps := raw_ts.map (fun ts => ts / 1000000)
  let bids := ticks0.map (fun t => t.2)
  let asks := ticks1.map (fun t => t.2)
  if 0 < top_n then
    (timestamps.take top_n.toNat, bids.take top_n.toNat, asks.take top_n.toNat)
  else
    (timestamps, bids, asks)

/-! ## Theorems -/

/-- C2: constructing a `Backtester` succeeds exactly when the three series
have equal lengths (any strategy, initial cash and stat-name map; the
degenerate length-2 case is an instance of the right-hand side), and fails
with the invalid-input `ValueError` otherwise. -/
theorem C2_constructor_length_check (timestamps bids asks : List ℚ)
    (strategy : Strategy) (initial_cash : ℚ)
    (stat_name_map : List (String × String)) :
    (∃ B, mkBacktester timestamps bids asks strategy initial_cash stat_name_map =
        .ok B) ↔
      (timestamps.length = bids.length ∧ bids.length = asks.length) := by
  unfold mkBacktester
  by_cases h : timestamps.length = bids.length ∧ bids.length = asks.length
  · simp [h]
  · simp [h]

/-- C3 counterexample: at `i = 0` with `bid = [2,1]`, `ask = [3,1]`,
`cash = 0` and `shares = -1`, the buy condition fails (future bid `1` is not
above ask `3`) and the claim's sell condition `shares > 0` fails as well, so
the claim predicts `"hold"`; the code's truthiness test `shares != 0`
fires instead and the shared decide returns `"sell"`. -/
theorem C3_counterexample :
    decideWith (offsetLookup 1) 0 [] [2, 1] [3, 1] 0 (-1) = "sell" ∧
      ¬ ((-1 : ℤ) > 0) ∧ ("sell" : String) ≠ "hold" := by
  refine ⟨rfl, by decide, by decide⟩

/-- C3 (amended): the shared decide returns `"buy"` exactly when
`future_bid > ask[i]` and `cash >= ask[i]`; otherwise `"sell"` exactly when
`shares` is **nonzero** (Python truthiness, not `shares > 0`) and
`future_ask < bid[i]`; otherwise `"hold"` — for every lookup hook, bar
index, series, cash and share count. -/
theorem C3_decide_characterization (fl : ℕ → List ℚ → List ℚ → ℚ × ℚ)
    (i : ℕ) (ts bid ask : List ℚ) (cash : ℚ) (shares : ℤ) :
    (decideWith fl i ts bid ask cash shares = "buy" ↔
      ((fl i bid ask).1 > ask.getD i 0 ∧ cash ≥ ask.getD i 0)) ∧
    (decideWith fl i ts bid ask cash shares = "sell" ↔
      (¬ ((fl i bid ask).1 > ask.getD i 0 ∧ cash ≥ ask.getD i 0) ∧
        (shares ≠ 0 ∧ (fl i bid ask).2 < bid.getD i 0))) ∧
    (decideWith fl i ts bid ask cash shares = "hold" ↔
      (¬ ((fl i bid ask).1 > ask.getD i 0 ∧ cash ≥ ask.getD i 0) ∧
        ¬ (shares ≠ 0 ∧ (fl i bid ask).2 < bid.getD i 0))) := by
  unfold decideWith
  dsimp only
  split_ifs with h1 h2 <;> simp_all

/-- C6: the windowed-aggregation `future_lookup` with constructor window
`window` (clamped to at least 1) and any aggregation function returns the
aggregations of `bid[i+1:end]` / `ask[i+1:end]` when `i+1 < end`
(`end = min(i+1+window, n)`), and the last bid/ask pair when `i+1 >= end` —
in particular at the last index `i = n-1`, regardless of `agg_fn`. -/
theorem C6_windowed_aggregation (window : ℤ) (agg_fn : List ℚ → ℚ)
    (bid ask : List ℚ) (i : ℕ)
    (_hlen : ask.length = bid.length) (hn : 1 ≤ bid.length) :
    (i + 1 < min (i + 1 + (max 1 window).toNat) bid.length →
      aggFutureLookup window agg_fn i bid ask =
        (agg_fn ((bid.drop (i + 1)).take
            (min (i + 1 + (max 1 window).toNat) bid.length - (i + 1))),
         agg_fn ((ask.drop (i + 1)).take
            (min (i + 1 + (max 1 window).toNat) bid.length - (i + 1))))) ∧
    (min (i + 1 + (max 1 window).toNat) bid.length ≤ i + 1 →
      aggFutureLookup window agg_fn i bid ask =
        (bid.getD (bid.length - 1) 0, ask.getD (ask.length - 1) 0)) ∧
    aggFutureLookup window agg_fn (bid.length - 1) bid ask =
      (bid.getD (bid.length - 1) 0, ask.getD (ask.length - 1) 0) := by
  unfold aggFutureLookup
  refine ⟨fun h => ?_, fun h => ?_, ?_⟩
  · rw [if_neg (by omega)]
  · rw [if_pos (by omega)]
  · rw [if_pos (by omega)]

/-- C8: both duration estimators reject fewer than two timestamps;
`estimate_annualization_factor_unix` additionally rejects a non-positive
first-to-last span; and on exactly two strictly increasing timestamps both
succeed with strictly positive (finite, being rationals) values. -/
theorem C8_insufficient_data_guards (ts : List ℚ) (periodSec : ℚ)
    (t0 t1 : ℚ) :
    (ts.length < 2 →
      estimate_annualization_factor_unix ts =
        .error "Need at least 2 timestamps to estimate frequency." ∧
      compute_effective_period_count ts periodSec =
        .error "Need at least 2 timestamps.") ∧
    (2 ≤ ts.length → ts.getD (ts.length - 1) 0 - ts.getD 0 0 ≤ 0 →
      estimate_annualization_factor_unix ts =
        .error "Timestamps must be increasing and span > 0 time.") ∧
    (t0 < t1 →
      estimate_annualization_factor_unix [t0, t1] =
        .ok (1 / (t1 - t0) * secondsPerYear) ∧
      0 < 1 / (t1 - t0) * secondsPerYear ∧
      compute_effective_period_count [t0, t1] 1 = .ok (t1 - t0) ∧
      0 < t1 - t0) := by
  refine ⟨fun h => ?_, fun h2 hd => ?_, fun h => ?_⟩
  · constructor
    · unfold estimate_annualization_factor_unix
      rw [if_pos h]
    · unfold compute_effective_period_count
      rw [if_pos h]
  · unfold estimate_annualization_factor_unix
    rw [if_neg (by omega)]
    simp only
    rw [if_pos hd]
  · have hspan : (0 : ℚ) < t1 - t0 := by linarith
    refine ⟨?_, ?_, ?_, hspan⟩
    · unfold estimate_annualization_factor_unix
      rw [if_neg (by simp)]
      simp only [List.length_cons, List.length_nil, List.getD]
      rw [if_neg (by simpa using not_le.mpr hspan)]
      norm_num
    · have hy : (0 : ℚ) < secondsPerYear := by norm_num [secondsPerYear]
      positivity
    · unfold compute_effective_period_count
      rw [if_neg (by simp)]
      simp

/-- Indexing through `take` and `map`. -/
lemma getD_take_map (f : ℚ × ℚ → ℚ) (l : List (ℚ × ℚ)) (m k : ℕ)
    (hk1 : k < m) (hk2 : k < l.length) :
    ((l.map f).take m).getD k 0 = f (l.getD k (0, 0)) := by
  rw [List.getD_eq_getElem?_getD, List.getElem?_take, if_pos hk1,
      List.getElem?_map, List.getD_eq_getElem?_getD,
      List.getElem?_eq_getElem hk2]
  simp

/-- Indexing through `map`. -/
lemma getD_map_pair (f : ℚ × ℚ → ℚ) (l : List (ℚ × ℚ)) (k : ℕ)
    (hk : k < l.length) :
    (l.map f).getD k 0 = f (l.getD k (0, 0)) := by
  rw [List.getD_eq_getElem?_getD, List.getElem?_map,
      List.getD_eq_getElem?_getD, List.getElem?_eq_getElem hk]
  simp

/-- C5 counterexample: with instrument 0 holding one tick and instrument 1
holding two, the ask series is longer than the timestamp/bid series (no
truncation requested), so the three outputs are **not** all of one length;
and with `top_n = 5` against three ticks, the truncated length is 3, not
`top_n`. -/
theorem C5_counterexample :
    (load_data [((1 : ℚ), 10)] [(1, 5), (2, 6)] 0).2.2.length ≠
      (load_data [((1 : ℚ), 10)] [(1, 5), (2, 6)] 0).1.length ∧
    (load_data [((0 : ℚ), 1), (1, 2), (2, 3)] [(0, 1), (1, 2), (2, 3)] 5).1.length ≠ 5 := by
  constructor
  · decide
  · decide

/-- C5 (amended): `load_data` returns timestamps and bids of one common
length — `min top_n (len ticks0)` under positive truncation, else
`len ticks0` — while the ask series analogously follows instrument 1's
tick count, so all three agree when instrument 1 has exactly as many
(relevant) ticks as instrument 0; entrywise, `timestamps[k]` is
`ticks0[k].1 / 1e6`, `bids[k]` is `ticks0[k].2` and `asks[k]` is
`ticks1[k].2`. -/
theorem C5_load_data_shape (ticks0 ticks1 : List (ℚ × ℚ)) (top_n : ℤ) :
    (load_data ticks0 ticks1 top_n).1.length =
        (load_data ticks0 ticks1 top_n).2.1.length ∧
    (load_data ticks0 ticks1 top_n).1.length =
        (if 0 < top_n then min top_n.toNat ticks0.length else ticks0.length) ∧
    (load_data ticks0 ticks1 top_n).2.2.length =
        (if 0 < top_n then min top_n.toNat ticks1.length else ticks1.length) ∧
    (ticks1.length = ticks0.length →
      (load_data ticks0 ticks1 top_n).2.2.length =
        (load_data ticks0 ticks1 top_n).1.length) ∧
    (∀ k, k < (load_data ticks0 ticks1 top_n).1.length →
      (load_data ticks0 ticks1 top_n).1.getD k 0 =
          (ticks0.getD k (0, 0)).1 / 1000000 ∧
      (load_data ticks0 ticks1 top_n).2.1.getD k 0 = (ticks0.getD k (0, 0)).2) ∧
    (∀ k, k < (load_data ticks0 ticks1 top_n).2.2.length →
      (load_data ticks0 ticks1 top_n).2.2.getD k 0 = (ticks1.getD k (0, 0)).2) := by
  unfold load_data
  dsimp only
  rw [List.map_map]
  by_cases ht : 0 < top_n
  · simp only [if_pos ht]
    refine ⟨by simp, by simp, by simp, fun h => by simp [h], fun k hk => ?_, fun k hk => ?_⟩
    · simp only [List.length_take, List.length_map, lt_min_iff] at hk
      exact ⟨getD_take_map _ _ _ _ hk.1 hk.2, getD_take_map _ _ _ _ hk.1 hk.2⟩
    · simp only [List.length_take, List.length_map, lt_min_iff] at hk
      exact getD_take_map _ _ _ _ hk.1 hk.2
  · simp only [if_neg ht]
    refine ⟨by simp, by simp, by simp, fun h => by simp [h], fun k hk => ?_, fun k hk => ?_⟩
    · simp only [List.length_map] at hk
      exact ⟨getD_map_pair _ _ _ hk, getD_map_pair _ _ _ hk⟩
    · simp only [List.length_map] at hk
      exact getD_map_pair _ _ _ hk

/-- C5 witness: the amended loader-shape theorem applied to two two-tick
instruments without truncation. -/
theorem C5_witness :
    (load_data [((1 : ℚ), 10), (2, 11)] [(1, 5), (2, 6)] 0).1.getD 0 0 =
      1 / 1000000 ∧
    (load_data [((1 : ℚ), 10), (2, 11)] [(1, 5), (2, 6)] 0).2.2.length =
      (load_data [((1 : ℚ), 10), (2, 11)] [(1, 5), (2, 6)] 0).1.length := by
  have h := C5_load_data_shape [((1 : ℚ), 10), (2, 11)] [(1, 5), (2, 6)] 0
  exact ⟨(h.2.2.2.2.1 0 (by decide)).1, h.2.2.2.1 (by decide)⟩

/-- C6 witness: the windowed-lookup theorem at window 3 over two aligned
bars, in both the sliced case (`i = 0`) and the degenerate last-index case
(`i = 1 = n-1`). -/
theorem C6_witness :
    aggFutureLookup 3 List.sum 0 [1, 2] [1, 2] = (2, 2) ∧
    aggFutureLookup 3 List.sum 1 [1, 2] [1, 2] = (2, 2) := by
  have h0 := C6_windowed_aggregation 3 List.sum [1, 2] [1, 2] 0 (by decide)
    (by decide)
  have h1 := C6_windowed_aggregation 3 List.sum [1, 2] [1, 2] 1 (by decide)
    (by decide)
  constructor
  · rw [h0.1 (by norm_num)]
    rw [(by norm_num [max_def, inf_eq_min, min_def]; omega :
      (0 + 1 + (max 1 (3 : ℤ)).toNat) ⊓ ([1, 2] : List ℚ).length - (0 + 1) = 1)]
    simp
  · rw [h1.2.1 (by norm_num)]
    simp

/-- Every entry of a cumulative product of positives (from a positive seed)
is positive. -/
lemma cumprodFrom_pos : ∀ (l : List ℚ) (acc : ℚ), 0 < acc →
    (∀ x ∈ l, 0 < x) → ∀ y ∈ cumprodFrom acc l, 0 < y := by
  intro l
  induction l with
  | nil => intro acc _ _ y hy; simp [cumprodFrom] at hy
  | cons x xs ih =>
      intro acc ha hl y hy
      simp only [cumprodFrom, List.mem_cons] at hy
      have hx : 0 < x := hl x (by simp)
      rcases hy with rfl | hy
      · exact mul_pos ha hx
      · exact ih (acc * x) (mul_pos ha hx) (fun z hz => hl z (by simp [hz])) y hy

/-- Entries of the drawdown series (value minus running peak, over the
peak) are nonpositive when the values are positive and the incoming peak is
positive. -/
lemma drawdown_entries_nonpos : ∀ (l : List ℚ) (a : ℚ), 0 < a →
    (∀ x ∈ l, 0 < x) →
    ∀ q ∈ List.zipWith (fun c p => (c - p) / p) l (runmaxFrom a l), q ≤ 0 := by
  intro l
  induction l with
  | nil => intro a _ _ q hq; simp at hq
  | cons x xs ih =>
      intro a ha hl q hq
      simp only [runmaxFrom, List.zipWith_cons_cons, List.mem_cons] at hq
      have hx : 0 < x := hl x (by simp)
      have hmax : 0 < max a x := lt_max_of_lt_left ha
      rcases hq with rfl | hq
      · exact div_nonpos_of_nonpos_of_nonneg (by simp [le_max_right]) hmax.le
      · exact ih (max a x) hmax (fun z hz => hl z (by simp [hz])) q hq

/-- The list minimum is at most the head. -/
lemma listMin_le_head (x : ℚ) (xs : List ℚ) : listMin (x :: xs) ≤ x := by
  cases xs with
  | nil => simp [listMin]
  | cons y t => simp [listMin]

/-- The list minimum of a nonempty list of nonpositives is nonpositive. -/
lemma listMin_nonpos (l : List ℚ) (hne : l ≠ []) (h : ∀ x ∈ l, x ≤ 0) :
    listMin l ≤ 0 := by
  cases l with
  | nil => exact absurd rfl hne
  | cons x xs => exact le_trans (listMin_le_head x xs) (h x (by simp))

/-- C7: `max_drawdown` — the negated minimum of
`(cumulative - running_max) / running_max` over the cumulative product of
`1 + r` — is a non-negative magnitude on every nonempty return series with
all returns above `-1`, and evaluates exactly to `1/5` on
`[0.1, -0.2, 0.1]`. -/
theorem C7_max_drawdown_nonneg_and_value (rets : List ℚ) (hne : rets ≠ [])
    (hgt : ∀ r ∈ rets, -1 < r) :
    0 ≤ max_drawdown rets ∧
      max_drawdown [1 / 10, -(1 / 5), 1 / 10] = 1 / 5 := by
  constructor
  · cases rets with
    | nil => exact absurd rfl hne
    | cons r rs =>
        have hpos : ∀ x ∈ (r :: rs).map (fun s => 1 + s), 0 < x := by
          intro x hx
          simp only [List.mem_map] at hx
          obtain ⟨s, hs, rfl⟩ := hx
          have := hgt s hs
          linarith
        unfold max_drawdown
        dsimp only
        rw [neg_nonneg]
        set ms := (r :: rs).map (fun s => 1 + s) with hms
        have hc : cumprod ms = (1 * (1 + r)) :: cumprodFrom (1 * (1 + r)) (rs.map (fun s => 1 + s)) := by
          simp [hms, cumprod, cumprodFrom]
        have hc0 : 0 < 1 * (1 + r) := by
          have := hgt r (by simp)
          linarith
        have htailpos : ∀ x ∈ cumprodFrom (1 * (1 + r)) (rs.map (fun s => 1 + s)), 0 < x :=
          cumprodFrom_pos _ _ hc0 (fun x hx => hpos x (by simp [hms, List.mem_map] at hx ⊢; tauto))
        rw [hc]
        simp only [runningMax, List.zipWith_cons_cons]
        apply listMin_nonpos _ (by simp)
        intro q hq
        simp only [List.mem_cons] at hq
        rcases hq with rfl | hq
        · simp
        · exact drawdown_entries_nonpos _ _ hc0 htailpos q hq
  · norm_num [max_drawdown, cumprod, cumprodFrom, runningMax, runmaxFrom,
      listMin, max_def, min_def]

/-- C7 witness: the drawdown theorem applied to the concrete return series
`[0.1, -0.2, 0.1]`. -/
theorem C7_witness :
    0 ≤ max_drawdown [1 / 10, -(1 / 5), 1 / 10] ∧
      max_drawdown [1 / 10, -(1 / 5), 1 / 10] = 1 / 5 :=
  C7_max_drawdown_nonneg_and_value [1 / 10, -(1 / 5), 1 / 10] (by simp)
    (by norm_num)

/-- C8 witness: the guard theorem applied to an empty timestamp list and to
the strictly increasing pair `[0, 2]`. -/
theorem C8_witness :
    estimate_annualization_factor_unix [] =
      .error "Need at least 2 timestamps to estimate frequency." ∧
    estimate_annualization_factor_unix [(0 : ℚ), 2] =
      .ok (1 / ((2 : ℚ) - 0) * secondsPerYear) ∧
    0 < 1 / ((2 : ℚ) - 0) * secondsPerYear ∧
    compute_effective_period_count [(0 : ℚ), 2] 1 = .ok ((2 : ℚ) - 0) := by
  have h := C8_insufficient_data_guards [] 1 (0 : ℚ) 2
  have h1 := h.1 (by decide)
  have h3 := h.2.2 (by norm_num)
  exact ⟨h1.1, h3.1, h3.2.1, h3.2.2.1⟩

/-! ### Engine run lemmas -/

/-- Lemma: `_execute` only changes the ledger and the trade log. -/
lemma execute_fields (B : Backtester) (side : String) (i : ℕ) :
    (B.execute side i).bid = B.bid ∧ (B.execute side i).ask = B.ask ∧
    (B.execute side i).ts = B.ts ∧ (B.execute side i).strategy = B.strategy ∧
    (B.execute side i).posHist = B.posHist ∧
    (B.execute side i).cashHist = B.cashHist := by
  unfold Backtester.execute
  dsimp only
  split_ifs <;> simp

/-- One loop step only appends one entry to each history series, leaving
the input series and the strategy untouched. -/
lemma step_struct (B : Backtester) (i : ℕ) :
    (B.step i).bid = B.bid ∧ (B.step i).ask = B.ask ∧
    (B.step i).ts = B.ts ∧ (B.step i).strategy = B.strategy ∧
    (B.step i).posHist.length = B.posHist.length + 1 ∧
    (B.step i).cashHist.length = B.cashHist.length + 1 := by
  unfold Backtester.step
  dsimp only
  split_ifs with h
  · have he := execute_fields B (B.strategy i B.ts B.bid B.ask B.cash B.shares) i
    simp [Backtester.mark, he.1, he.2.1, he.2.2.1, he.2.2.2.1, he.2.2.2.2.1,
      he.2.2.2.2.2]
  · simp [Backtester.mark]

/-- The run loop over any index list preserves the inputs and appends one
history entry per iteration. -/
lemma foldl_step_struct (l : List ℕ) : ∀ B : Backtester,
    (l.foldl Backtester.step B).bid = B.bid ∧
    (l.foldl Backtester.step B).ask = B.ask ∧
    (l.foldl Backtester.step B).ts = B.ts ∧
    (l.foldl Backtester.step B).posHist.length = B.posHist.length + l.length ∧
    (l.foldl Backtester.step B).cashHist.length = B.cashHist.length + l.length := by
  induction l with
  | nil => intro B; simp
  | cons i l ih =>
      intro B
      have hs := step_struct B i
      have hr := ih (B.step i)
      refine ⟨?_, ?_, ?_, ?_, ?_⟩ <;>
        simp only [List.foldl_cons, hr.1, hr.2.1, hr.2.2.1, hr.2.2.2.1,
          hr.2.2.2.2, hs.1, hs.2.1, hs.2.2.1, hs.2.2.2.2.1, hs.2.2.2.2.2,
          List.length_cons] <;> omega

/-- Lemma: `_execute` keeps the ledger non-negative when fed non-negative prices:
a buy is sized by `floor(cash / price)` and cannot overdraw, a sell adds
`shares * price` and zeroes the position. -/
lemma execute_ledger (B : Backtester) (side : String) (i : ℕ)
    (hb : 0 ≤ B.bid.getD i 0) (ha : 0 ≤ B.ask.getD i 0)
    (hc : 0 ≤ B.cash) (hs : 0 ≤ B.shares) :
    0 ≤ (B.execute side i).cash ∧ 0 ≤ (B.execute side i).shares := by
  unfold Backtester.execute
  dsimp only
  by_cases hside : side = "buy"
  · simp only [hside, if_pos rfl, reduceIte]
    by_cases hq : ⌊B.cash / B.ask.getD i 0⌋ = 0
    · simp only [hq, if_pos rfl, reduceIte]
      exact ⟨hc, hs⟩
    · rcases ha.lt_or_eq with hpos | heq
      · have h1 : (⌊B.cash / B.ask.getD i 0⌋ : ℚ) ≤ B.cash / B.ask.getD i 0 :=
          Int.floor_le _
        have h2 : (⌊B.cash / B.ask.getD i 0⌋ : ℚ) * B.ask.getD i 0 ≤
            (B.cash / B.ask.getD i 0) * B.ask.getD i 0 :=
          mul_le_mul_of_nonneg_right h1 hpos.le
        rw [div_mul_cancel₀ _ (ne_of_gt hpos)] at h2
        have h3 : (0 : ℤ) ≤ ⌊B.cash / B.ask.getD i 0⌋ :=
          Int.floor_nonneg.mpr (div_nonneg hc hpos.le)
        rw [if_neg hq]
        refine ⟨?_, ?_⟩
        · dsimp only
          linarith
        · dsimp only
          have : (0 : ℤ) ≤ B.shares + ⌊B.cash / B.ask.getD i 0⌋ := by omega
          exact_mod_cast this
      · exfalso
        apply hq
        rw [← heq, div_zero]
        exact Int.floor_zero
  · simp only [if_neg hside]
    by_cases hq : B.shares = 0
    · simp only [hq, if_pos rfl, reduceIte]
      exact ⟨hc, le_rfl⟩
    · rw [if_neg hq]
      refine ⟨?_, ?_⟩
      · dsimp only
        have : (0 : ℚ) ≤ (B.shares : ℚ) * B.bid.getD i 0 :=
          mul_nonneg (by exact_mod_cast hs) hb
        linarith
      · dsimp only
        simp

/-- A loop step keeps the ledger non-negative. -/
lemma step_ledger (B : Backtester) (i : ℕ)
    (hball : ∀ j, 0 ≤ B.bid.getD j 0) (haall : ∀ j, 0 ≤ B.ask.getD j 0)
    (hc : 0 ≤ B.cash) (hs : 0 ≤ B.shares) :
    0 ≤ (B.step i).cash ∧ 0 ≤ (B.step i).shares := by
  unfold Backtester.step
  dsimp only
  split_ifs with h
  · have := execute_ledger B (B.strategy i B.ts B.bid B.ask B.cash B.shares) i
      (hball i) (haall i) hc hs
    simpa [Backtester.mark] using this
  · simpa [Backtester.mark] using ⟨hc, hs⟩

/-- The whole run loop keeps the ledger non-negative. -/
lemma foldl_step_ledger (l : List ℕ) : ∀ B : Backtester,
    (∀ j, 0 ≤ B.bid.getD j 0) → (∀ j, 0 ≤ B.ask.getD j 0) →
    0 ≤ B.cash → 0 ≤ B.shares →
    0 ≤ (l.foldl Backtester.step B).cash ∧
      0 ≤ (l.foldl Backtester.step B).shares := by
  induction l with
  | nil => intro B _ _ hc hs; exact ⟨hc, hs⟩
  | cons i l ih =>
      intro B hball haall hc hs
      have hs1 := step_ledger B i hball haall hc hs
      have hst := step_struct B i
      simp only [List.foldl_cons]
      exact ih (B.step i) (by rw [hst.1]; exact hball) (by rw [hst.2.1]; exact haall)
        hs1.1 hs1.2

/-- Final liquidation always leaves a flat position (`shares == 0`):
a nonzero position is zeroed, an already-flat one stays flat. -/
lemma finalize_shares (B : Backtester) : (B.finalize).shares = 0 := by
  unfold Backtester.finalize
  dsimp only
  split_ifs with h
  · simp [Backtester.mark]
  · push_neg at h
    simp [Backtester.mark, h]

/-- Final liquidation keeps cash non-negative when the last bid is. -/
lemma finalize_cash (B : Backtester)
    (hb : 0 ≤ B.bid.getD (B.bid.length - 1) 0)
    (hc : 0 ≤ B.cash) (hs : 0 ≤ B.shares) : 0 ≤ (B.finalize).cash := by
  unfold Backtester.finalize
  dsimp only
  split_ifs with h
  · simp only [Backtester.mark]
    have : (0 : ℚ) ≤ (B.shares : ℚ) * B.bid.getD (B.bid.length - 1) 0 :=
      mul_nonneg (by exact_mod_cast hs) hb
    linarith
  · simpa [Backtester.mark] using hc

/-- Final liquidation appends exactly one entry to each history series and
preserves the input series. -/
lemma finalize_struct (B : Backtester) :
    (B.finalize).bid = B.bid ∧
    (B.finalize).posHist.length = B.posHist.length + 1 ∧
    (B.finalize).cashHist.length = B.cashHist.length + 1 := by
  unfold Backtester.finalize
  dsimp only
  split_ifs with h <;> simp [Backtester.mark]

/-- Entries of a list of positives are non-negative under `getD 0`. -/
lemma getD_nonneg_of_forall_pos (l : List ℚ) (h : ∀ r ∈ l, 0 < r) :
    ∀ j, 0 ≤ l.getD j 0 := by
  intro j
  rcases lt_or_ge j l.length with hj | hj
  · rw [List.getD_eq_getElem?_getD, List.getElem?_eq_getElem hj]
    exact (h _ (List.getElem_mem hj)).le
  · rw [List.getD_eq_getElem?_getD, List.getElem?_eq_none hj]
    simp

/-- In-range entries of a list of positives are positive under `getD 0`. -/
lemma getD_pos_of_forall_pos (l : List ℚ) (h : ∀ r ∈ l, 0 < r) :
    ∀ j, j < l.length → 0 < l.getD j 0 := by
  intro j hj
  rw [List.getD_eq_getElem?_getD, List.getElem?_eq_getElem hj]
  exact h _ (List.getElem_mem hj)

/-- A strategy that always answers `"hold"`. -/
def holdStrategy : Strategy := fun _ _ _ _ _ _ => "hold"

/-- The engine state produced by
`Backtester([1,2], [1,1], [1,1], holdStrategy, initial_cash=-1)`. -/
def negCashBacktester : Backtester :=
  { ts := [1, 2], bid := [1, 1], ask := [1, 1], strategy := holdStrategy,
    cash := -1, shares := 0, trades := [], posHist := [], cashHist := [],
    statNameMap := mergeStatMap [] }

/-- C1 counterexample: a Backtester constructed with strictly positive bid
and ask prices (`[1,1]`/`[1,1]`) but a negative `initial_cash` of `-1`
finishes `run()` with `cash = -1 < 0`: the claim's conclusion `cash >= 0`
fails because the quantification admits negative initial cash. -/
theorem C1_counterexample :
    mkBacktester [1, 2] [1, 1] [1, 1] holdStrategy (-1) [] =
      .ok negCashBacktester ∧
    (negCashBacktester.run).cash = -1 ∧ ((-1 : ℚ) < 0) := by
  refine ⟨rfl, rfl, by norm_num⟩

/-- C1 (amended): for every Backtester constructed with strictly positive
bid and ask prices, a **non-negative initial cash**, and any strategy
whatsoever, `run()` ends with `cash >= 0` and `shares == 0` (the final
liquidation guarantee); no buy overdraws (quantity `floor(cash/price)`) and
no sell overdraws (quantity is the share count). -/
theorem C1_ledger_nonneg (timestamps bids asks : List ℚ) (strategy : Strategy)
    (initial_cash : ℚ) (stat_name_map : List (String × String)) (B : Backtester)
    (hmk : mkBacktester timestamps bids asks strategy initial_cash stat_name_map =
      .ok B)
    (hbid : ∀ r ∈ bids, 0 < r) (hask : ∀ r ∈ asks, 0 < r)
    (hcash : 0 ≤ initial_cash) :
    0 ≤ (B.run).cash ∧ (B.run).shares = 0 := by
  unfold mkBacktester at hmk
  split_ifs at hmk with h
  injection hmk with hB
  subst hB
  constructor
  · unfold Backtester.run
    dsimp only
    have hfold := foldl_step_ledger (List.range (bids.length - 1))
      { ts := timestamps, bid := bids, ask := asks, strategy := strategy,
        cash := initial_cash, shares := 0, trades := [], posHist := [],
        cashHist := [], statNameMap := mergeStatMap stat_name_map }
      (getD_nonneg_of_forall_pos bids hbid)
      (getD_nonneg_of_forall_pos asks hask) hcash le_rfl
    have hstruct := foldl_step_struct (List.range (bids.length - 1))
      { ts := timestamps, bid := bids, ask := asks, strategy := strategy,
        cash := initial_cash, shares := 0, trades := [], posHist := [],
        cashHist := [], statNameMap := mergeStatMap stat_name_map }
    apply finalize_cash
    · rw [hstruct.1]
      exact getD_nonneg_of_forall_pos bids hbid _
    · exact hfold.1
    · exact hfold.2
  · exact finalize_shares _

/-- A 3-bar engine with positive prices, unit initial cash and the one-bar
lookahead strategy (it buys at bar 0 and is force-liquidated at the end). -/
def tradeBacktester : Backtester :=
  { ts := [1, 2, 3], bid := [1, 2, 2], ask := [1, 1, 2],
    strategy := futureLookupStrategy, cash := 1, shares := 0, trades := [],
    posHist := [], cashHist := [], statNameMap := mergeStatMap [] }

/-- C1 witness: the amended ledger theorem applied to a concrete 3-bar
engine with positive prices and non-negative initial cash. -/
theorem C1_witness :
    0 ≤ (tradeBacktester.run).cash ∧ (tradeBacktester.run).shares = 0 :=
  C1_ledger_nonneg [1, 2, 3] [1, 2, 2] [1, 1, 2] futureLookupStrategy 1 []
    tradeBacktester rfl (by decide) (by decide) (by norm_num)

/-- Length of the three-way zip: the least of the three lengths. -/
lemma zipWith3_length (f : ℤ → ℚ → ℚ → ℚ) :
    ∀ (p : List ℤ) (x c : List ℚ),
      (zipWith3 f p x c).length = min (min p.length x.length) c.length := by
  intro p
  induction p with
  | nil => intro x c; simp [zipWith3]
  | cons a p ih =>
      intro x c
      cases x with
      | nil => simp [zipWith3]
      | cons b x =>
          cases c with
          | nil => simp [zipWith3]
          | cons d c =>
              simp only [zipWith3, List.length_cons, ih]
              omega

/-- Length of the three-way optional zip. -/
lemma zipWith3Opt_length (f : ℤ → ℚ → ℚ → Option ℚ) :
    ∀ (p : List ℤ) (x c : List ℚ),
      (zipWith3Opt f p x c).length = min (min p.length x.length) c.length := by
  intro p
  induction p with
  | nil => intro x c; simp [zipWith3Opt]
  | cons a p ih =>
      intro x c
      cases x with
      | nil => simp [zipWith3Opt]
      | cons b x =>
          cases c with
          | nil => simp [zipWith3Opt]
          | cons d c =>
              simp only [zipWith3Opt, List.length_cons, ih]
              omega

/-- C10: after `run()` over `n >= 1` bars, `positions` and `cash_history`
hold exactly `n` entries — `n-1` from the loop bars plus the one final mark
appended unconditionally after the loop — and consequently
`equity_curve()` and `weights()` also have length `n`. -/
theorem C10_history_lengths (timestamps bids asks : List ℚ)
    (strategy : Strategy) (initial_cash : ℚ)
    (stat_name_map : List (String × String)) (B : Backtester)
    (hmk : mkBacktester timestamps bids asks strategy initial_cash stat_name_map =
      .ok B)
    (hn : 1 ≤ bids.length) :
    (B.run).posHist.length = bids.length ∧
    (B.run).cashHist.length = bids.length ∧
    (B.run).equity_curve.length = bids.length ∧
    (B.run).weights.length = bids.length := by
  unfold mkBacktester at hmk
  split_ifs at hmk with h
  injection hmk with hB
  subst hB
  unfold Backtester.run
  dsimp only
  have hstruct := foldl_step_struct (List.range (bids.length - 1))
    { ts := timestamps, bid := bids, ask := asks, strategy := strategy,
      cash := initial_cash, shares := 0, trades := [], posHist := [],
      cashHist := [], statNameMap := mergeStatMap stat_name_map }
  set R := (List.range (bids.length - 1)).foldl Backtester.step
    { ts := timestamps, bid := bids, ask := asks, strategy := strategy,
      cash := initial_cash, shares := 0, trades := [], posHist := [],
      cashHist := [], statNameMap := mergeStatMap stat_name_map } with hRdef
  have hfin := finalize_struct R
  have hpos : (R.finalize).posHist.length = bids.length := by
    have hx := hstruct.2.2.2.1
    dsimp only at hx
    rw [hfin.2.1, hx]
    simp only [List.length_range, List.length_nil]
    omega
  have hcash : (R.finalize).cashHist.length = bids.length := by
    have hx := hstruct.2.2.2.2
    dsimp only at hx
    rw [hfin.2.2, hx]
    simp only [List.length_range, List.length_nil]
    omega
  have hbid : (R.finalize).bid = bids := by rw [hfin.1, hstruct.1]
  refine ⟨hpos, hcash, ?_, ?_⟩
  · unfold Backtester.equity_curve
    rw [zipWith3_length, hpos, hcash, hbid, List.length_take]
    omega
  · unfold Backtester.weights
    rw [zipWith3Opt_length, hpos, hcash, hbid, List.length_take]
    omega

/-- Appending one mark to both histories appends one mark-to-market entry,
as long as the bid series is long enough. -/
lemma zipWith3_snoc (f : ℤ → ℚ → ℚ → ℚ) :
    ∀ (ps : List ℤ) (cs bs : List ℚ) (a : ℤ) (b : ℚ),
      ps.length = cs.length → ps.length < bs.length →
      zipWith3 f (ps ++ [a]) (bs.take (ps.length + 1)) (cs ++ [b]) =
        zipWith3 f ps (bs.take ps.length) cs ++
          [f a (bs.getD ps.length 0) b] := by
  intro ps
  induction ps with
  | nil =>
      intro cs bs a b hlen hlt
      cases cs with
      | nil =>
          cases bs with
          | nil => simp at hlt
          | cons x bs => simp [zipWith3]
      | cons c cs => simp at hlen
  | cons p ps ih =>
      intro cs bs a b hlen hlt
      cases cs with
      | nil => simp at hlen
      | cons c cs =>
          cases bs with
          | nil => simp at hlt
          | cons x bs =>
              simp only [List.cons_append, List.length_cons,
                List.take_succ_cons, zipWith3, List.append_eq]
              rw [ih cs bs a b (by simpa using hlen) (by simpa using hlt)]
              simp [List.getD_cons_succ]

/-- A mark-to-market entry is positive when the price is positive and the
ledger is non-negative with positive cash or a positive position. -/
lemma entry_pos (s : ℤ) (px c : ℚ) (hpx : 0 < px) (hc : 0 ≤ c) (hs : 0 ≤ s)
    (hcs : 0 < c ∨ 0 < s) : 0 < (s : ℚ) * px + c := by
  rcases hcs with h | h
  · have : (0 : ℚ) ≤ (s : ℚ) * px := mul_nonneg (by exact_mod_cast hs) hpx.le
    linarith
  · have hs' : (0 : ℚ) < (s : ℚ) := by exact_mod_cast h
    have : (0 : ℚ) < (s : ℚ) * px := mul_pos hs' hpx
    linarith

/-- Lemma: `_execute` does not change the equity curve (it marks nothing). -/
lemma execute_equity (B : Backtester) (side : String) (i : ℕ) :
    (B.execute side i).equity_curve = B.equity_curve := by
  have h := execute_fields B side i
  unfold Backtester.equity_curve
  rw [h.1, h.2.2.2.2.1, h.2.2.2.2.2]

/-- Lemma: `_execute` keeps "cash is positive or the position is positive": a
nonzero buy moves value into shares, a nonzero sell moves it into cash. -/
lemma execute_strong (B : Backtester) (side : String) (i : ℕ)
    (hbpos : 0 < B.bid.getD i 0) (ha : 0 ≤ B.ask.getD i 0)
    (hc : 0 ≤ B.cash) (hs : 0 ≤ B.shares)
    (hcs : 0 < B.cash ∨ 0 < B.shares) :
    0 < (B.execute side i).cash ∨ 0 < (B.execute side i).shares := by
  unfold Backtester.execute
  dsimp only
  by_cases hside : side = "buy"
  · simp only [hside, if_pos rfl, reduceIte]
    by_cases hq : ⌊B.cash / B.ask.getD i 0⌋ = 0
    · simp only [hq, if_pos rfl, reduceIte]
      exact hcs
    · rw [if_neg hq]
      right
      dsimp only
      rcases ha.lt_or_eq with hpos | heq
      · have h3 : (0 : ℤ) ≤ ⌊B.cash / B.ask.getD i 0⌋ :=
          Int.floor_nonneg.mpr (div_nonneg hc hpos.le)
        omega
      · exfalso
        apply hq
        rw [← heq, div_zero]
        exact Int.floor_zero
  · simp only [if_neg hside]
    by_cases hq : B.shares = 0
    · simp only [hq, if_pos rfl, reduceIte]
      rcases hcs with h | h
      · exact Or.inl h
      · rw [hq] at h
        exact absurd h (lt_irrefl 0)
    · rw [if_neg hq]
      left
      dsimp only
      have hspos : (0 : ℚ) < (B.shares : ℚ) := by
        have : 0 < B.shares := lt_of_le_of_ne hs (fun h => hq h.symm)
        exact_mod_cast this
      have : (0 : ℚ) < (B.shares : ℚ) * B.bid.getD i 0 := mul_pos hspos hbpos
      linarith

/-- Marking appends the current mark-to-market value to the equity curve. -/
lemma mark_equity (B : Backtester)
    (hlen : B.posHist.length = B.cashHist.length)
    (hlt : B.posHist.length < B.bid.length) :
    (B.mark).equity_curve =
      B.equity_curve ++
        [(B.shares : ℚ) * B.bid.getD B.posHist.length 0 + B.cash] := by
  unfold Backtester.equity_curve Backtester.mark
  dsimp only
  rw [List.length_append, List.length_singleton]
  exact zipWith3_snoc _ B.posHist B.cashHist B.bid B.shares B.cash hlen hlt

/-- Marking preserves the ledger, grows both histories by one, and keeps
every equity entry positive (the new mark included). -/
lemma mark_all (B : Backtester)
    (hb : ∀ j, j < B.bid.length → 0 < B.bid.getD j 0)
    (hlen : B.posHist.length = B.cashHist.length)
    (hlt : B.posHist.length < B.bid.length)
    (hc : 0 ≤ B.cash) (hs : 0 ≤ B.shares)
    (hcs : 0 < B.cash ∨ 0 < B.shares)
    (heq : ∀ x ∈ B.equity_curve, 0 < x) :
    (0 ≤ (B.mark).cash ∧ 0 ≤ (B.mark).shares ∧
      (0 < (B.mark).cash ∨ 0 < (B.mark).shares)) ∧
    (B.mark).posHist.length = B.posHist.length + 1 ∧
    (B.mark).posHist.length = (B.mark).cashHist.length ∧
    (∀ x ∈ (B.mark).equity_curve, 0 < x) := by
  refine ⟨⟨hc, hs, hcs⟩, by simp [Backtester.mark], by simp [Backtester.mark, hlen], ?_⟩
  rw [mark_equity B hlen hlt]
  intro x hx
  rw [List.mem_append] at hx
  rcases hx with hx | hx
  · exact heq x hx
  · rw [List.mem_singleton] at hx
    subst hx
    exact entry_pos B.shares _ B.cash (hb _ hlt) hc hs hcs

/-- One loop step preserves the strong ledger invariant and equity-curve
positivity when the mark lands on an in-range bar. -/
lemma step_equity (B : Backtester) (i : ℕ)
    (hb : ∀ j, j < B.bid.length → 0 < B.bid.getD j 0)
    (ha : ∀ j, 0 ≤ B.ask.getD j 0)
    (hi : i < B.bid.length)
    (hlen : B.posHist.length = B.cashHist.length)
    (hlt : B.posHist.length < B.bid.length)
    (hc : 0 ≤ B.cash) (hs : 0 ≤ B.shares)
    (hcs : 0 < B.cash ∨ 0 < B.shares)
    (heq : ∀ x ∈ B.equity_curve, 0 < x) :
    (0 ≤ (B.step i).cash ∧ 0 ≤ (B.step i).shares ∧
      (0 < (B.step i).cash ∨ 0 < (B.step i).shares)) ∧
    (B.step i).posHist.length = B.posHist.length + 1 ∧
    (B.step i).posHist.length = (B.step i).cashHist.length ∧
    (∀ x ∈ (B.step i).equity_curve, 0 < x) := by
  unfold Backtester.step
  dsimp only
  split_ifs with hact
  · have hf := execute_fields B (B.strategy i B.ts B.bid B.ask B.cash B.shares) i
    have hl := execute_ledger B (B.strategy i B.ts B.bid B.ask B.cash B.shares) i
      ((hb i hi).le) (ha i) hc hs
    have hst := execute_strong B (B.strategy i B.ts B.bid B.ask B.cash B.shares) i
      (hb i hi) (ha i) hc hs hcs
    have hout := mark_all (B.execute (B.strategy i B.ts B.bid B.ask B.cash B.shares) i)
      (by rw [hf.1]; exact hb)
      (by rw [hf.2.2.2.2.1, hf.2.2.2.2.2]; exact hlen)
      (by rw [hf.2.2.2.2.1, hf.1]; exact hlt)
      hl.1 hl.2 hst
      (by rw [execute_equity]; exact heq)
    refine ⟨hout.1, ?_, hout.2.2.1, hout.2.2.2⟩
    rw [hout.2.1, hf.2.2.2.2.1]
  · exact mark_all B hb hlen hlt hc hs hcs heq

/-- The whole run loop preserves the strong ledger invariant and keeps the
equity curve entrywise positive. -/
lemma foldl_step_equity (l : List ℕ) : ∀ B : Backtester,
    (∀ j, j < B.bid.length → 0 < B.bid.getD j 0) →
    (∀ j, 0 ≤ B.ask.getD j 0) →
    (∀ i ∈ l, i < B.bid.length) →
    B.posHist.length = B.cashHist.length →
    B.posHist.length + l.length ≤ B.bid.length →
    0 ≤ B.cash → 0 ≤ B.shares → (0 < B.cash ∨ 0 < B.shares) →
    (∀ x ∈ B.equity_curve, 0 < x) →
    (0 ≤ (l.foldl Backtester.step B).cash ∧
      0 ≤ (l.foldl Backtester.step B).shares ∧
      (0 < (l.foldl Backtester.step B).cash ∨
        0 < (l.foldl Backtester.step B).shares)) ∧
    (l.foldl Backtester.step B).posHist.length =
      (l.foldl Backtester.step B).cashHist.length ∧
    (∀ x ∈ (l.foldl Backtester.step B).equity_curve, 0 < x) := by
  induction l with
  | nil =>
      intro B _ _ _ hlen _ hc hs hcs heq
      exact ⟨⟨hc, hs, hcs⟩, hlen, heq⟩
  | cons i l ih =>
      intro B hb ha hl hlen hbound hc hs hcs heq
      have hi : i < B.bid.length := hl i (by simp)
      have hlt : B.posHist.length < B.bid.length := by
        simp only [List.length_cons] at hbound
        omega
      have hstep := step_equity B i hb ha hi hlen hlt hc hs hcs heq
      have hstruct := step_struct B i
      simp only [List.foldl_cons]
      exact ih (B.step i)
        (by rw [hstruct.1]; exact hb)
        (by rw [hstruct.2.1]; exact ha)
        (by rw [hstruct.1]; exact fun j hj => hl j (by simp [hj]))
        hstep.2.2.1
        (by rw [hstruct.1, hstep.2.1]; simp only [List.length_cons] at hbound; omega)
        hstep.1.1 hstep.1.2.1 hstep.1.2.2 hstep.2.2.2

/-- Final liquidation leaves positive cash and an entrywise positive equity
curve (its final mark is the liquidated cash). -/
lemma finalize_equity (B : Backtester)
    (hb : ∀ j, j < B.bid.length → 0 < B.bid.getD j 0)
    (hlen : B.posHist.length = B.cashHist.length)
    (hlt : B.posHist.length < B.bid.length)
    (hc : 0 ≤ B.cash) (hs : 0 ≤ B.shares)
    (hcs : 0 < B.cash ∨ 0 < B.shares) :
    0 < (B.finalize).cash ∧
    ((∀ x ∈ B.equity_curve, 0 < x) →
      ∀ x ∈ (B.finalize).equity_curve, 0 < x) := by
  have hn : 1 ≤ B.bid.length := by omega
  have hlast : 0 < B.bid.getD (B.bid.length - 1) 0 := hb _ (by omega)
  unfold Backtester.finalize
  dsimp only
  split_ifs with hsh
  · have hspos : (0 : ℚ) < (B.shares : ℚ) := by
      have : 0 < B.shares := lt_of_le_of_ne hs (fun h => hsh h.symm)
      exact_mod_cast this
    have hcash' : 0 < B.cash + (B.shares : ℚ) * B.bid.getD (B.bid.length - 1) 0 := by
      have := mul_pos hspos hlast
      linarith
    constructor
    · simpa [Backtester.mark] using hcash'
    · intro heq
      set B' : Backtester :=
        { B with cash := B.cash + B.shares * B.bid.getD (B.bid.length - 1) 0,
                 trades := B.trades ++
                   [("final_liq", B.ts.getD (B.ts.length - 1) 0,
                     B.bid.getD (B.bid.length - 1) 0, B.shares)],
                 shares := 0 } with hB'
      have hmk := mark_equity B' (by simp [hB', hlen]) (by simp [hB']; omega)
      rw [hmk]
      intro x hx
      rw [List.mem_append] at hx
      rcases hx with hx | hx
      · exact heq x hx
      · rw [List.mem_singleton] at hx
        subst hx
        simpa [hB'] using hcash'
  · push_neg at hsh
    have hcpos : 0 < B.cash := by
      rcases hcs with h | h
      · exact h
      · exact absurd hsh (by omega)
    constructor
    · simpa [Backtester.mark] using hcpos
    · intro heq
      have hmk := mark_equity B hlen hlt
      rw [hmk]
      intro x hx
      rw [List.mem_append] at hx
      rcases hx with hx | hx
      · exact heq x hx
      · rw [List.mem_singleton] at hx
        subst hx
        exact entry_pos B.shares _ B.cash (hb _ hlt) hc hs (Or.inl hcpos)

/-- Lemma: `pct_change` keeps the series length (the first entry is `NaN`). -/
lemma pct_change_length (curve : List ℚ) :
    (pct_change curve).length = curve.length := by
  cases curve with
  | nil => simp [pct_change]
  | cons x rest => simp [pct_change]

/-- C4: after any completed run over `n >= 1` bars with positive prices and
positive initial cash, the engine's `"Hit rate"` statistic is the long-only
hit-rate formula over the equity curve's `pct_change` series: the count of
strictly positive percentage-change returns divided by the number of
equity-curve periods; the equity curve itself is entrywise positive (so the
percentage changes are all well defined) and has one period per bar. -/
theorem C4_hit_rate_metric (timestamps bids asks : List ℚ)
    (strategy : Strategy) (initial_cash : ℚ)
    (stat_name_map : List (String × String)) (B : Backtester)
    (hmk : mkBacktester timestamps bids asks strategy initial_cash stat_name_map =
      .ok B)
    (hn : 1 ≤ bids.length)
    (hbid : ∀ r ∈ bids, 0 < r) (hask : ∀ r ∈ asks, 0 < r)
    (hcash : 0 < initial_cash) :
    (B.run).hitRateMetric =
      some ((((pct_change (B.run).equity_curve).countP (fun o => match o with
          | some r => decide (0 < r)
          | none => false) : ℕ) : ℚ) /
        (((B.run).equity_curve.length : ℕ) : ℚ)) ∧
    (∀ x ∈ (B.run).equity_curve, 0 < x) ∧
    (B.run).equity_curve.length = bids.length := by
  unfold mkBacktester at hmk
  split_ifs at hmk with h
  injection hmk with hB
  subst hB
  unfold Backtester.run
  dsimp only
  have hstruct := foldl_step_struct (List.range (bids.length - 1))
    { ts := timestamps, bid := bids, ask := asks, strategy := strategy,
      cash := initial_cash, shares := 0, trades := [], posHist := [],
      cashHist := [], statNameMap := mergeStatMap stat_name_map }
  have hfold := foldl_step_equity (List.range (bids.length - 1))
    { ts := timestamps, bid := bids, ask := asks, strategy := strategy,
      cash := initial_cash, shares := 0, trades := [], posHist := [],
      cashHist := [], statNameMap := mergeStatMap stat_name_map }
    (fun j hj => getD_pos_of_forall_pos bids hbid j hj)
    (getD_nonneg_of_forall_pos asks hask)
    (fun i hi => by simpa using List.mem_range.mp hi |>.trans_le (by omega))
    rfl
    (by simp)
    hcash.le le_rfl (Or.inl hcash) (by unfold Backtester.equity_curve; simp [zipWith3])
  set R := (List.range (bids.length - 1)).foldl Backtester.step
    { ts := timestamps, bid := bids, ask := asks, strategy := strategy,
      cash := initial_cash, shares := 0, trades := [], posHist := [],
      cashHist := [], statNameMap := mergeStatMap stat_name_map } with hRdef
  have hRpos : R.posHist.length = bids.length - 1 := by
    have hx := hstruct.2.2.2.1
    dsimp only at hx
    rw [hx]
    simp
  have hRbid : R.bid = bids := hstruct.1
  have hRlt : R.posHist.length < R.bid.length := by
    rw [hRpos, hRbid]
    omega
  have hfin := finalize_equity R
    (by rw [hRbid]; exact fun j hj => getD_pos_of_forall_pos bids hbid j hj)
    hfold.2.1 hRlt hfold.1.1 hfold.1.2.1 hfold.1.2.2
  have heqpos : ∀ x ∈ (R.finalize).equity_curve, 0 < x :=
    hfin.2 hfold.2.2
  have hfinstruct := finalize_struct R
  have hlenq : (R.finalize).equity_curve.length = bids.length := by
    unfold Backtester.equity_curve
    rw [zipWith3_length, hfinstruct.2.1, hfinstruct.2.2, hfinstruct.1, hRbid,
      hRpos, List.length_take]
    have hx := hstruct.2.2.2.2
    dsimp only at hx
    rw [hx]
    simp only [List.length_range, List.length_nil]
    omega
  refine ⟨?_, heqpos, hlenq⟩
  unfold Backtester.hitRateMetric long_only_hitrate hit_rate
  rw [if_neg (by rw [pct_change_length, hlenq]; omega)]
  rw [pct_change_length]

/-- C4 witness: the hit-rate theorem applied to the concrete 3-bar engine
(it buys at bar 0, holds, and is liquidated: equity `[1, 2, 2]`, returns
`[NaN, 1, 0]`, hit rate `1/3`). -/
theorem C4_witness :
    (tradeBacktester.run).hitRateMetric =
      some ((((pct_change (tradeBacktester.run).equity_curve).countP
          (fun o => match o with
            | some r => decide (0 < r)
            | none => false) : ℕ) : ℚ) /
        (((tradeBacktester.run).equity_curve.length : ℕ) : ℚ)) ∧
    (tradeBacktester.run).equity_curve.length = 3 := by
  have h := C4_hit_rate_metric [1, 2, 3] [1, 2, 2] [1, 1, 2]
    futureLookupStrategy 1 [] tradeBacktester rfl (by decide) (by decide)
    (by decide) (by norm_num)
  exact ⟨h.1, h.2.2⟩

/-- C10 witness: the lengths theorem applied to the concrete 3-bar engine
of `mkBacktester [1,2,3] [1,2,2] [1,1,2] futureLookupStrategy 1 []`. -/
theorem C10_witness :
    (tradeBacktester.run).posHist.length = 3 ∧
    (tradeBacktester.run).equity_curve.length = 3 := by
  have h := C10_history_lengths [1, 2, 3] [1, 2, 2] [1, 1, 2]
    futureLookupStrategy 1 [] tradeBacktester rfl (by decide)
  exact ⟨h.1, h.2.2.1⟩

/-- In an association list with no duplicate keys, a key determines its
value. -/
lemma nodup_keys_unique {α β : Type} : ∀ (l : List (α × β)),
    (l.map Prod.fst).Nodup →
    ∀ (a : α) (b1 b2 : β), (a, b1) ∈ l → (a, b2) ∈ l → b1 = b2 := by
  intro l
  induction l with
  | nil => intro _ a b1 b2 h1 _; simp at h1
  | cons kv l ih =>
      intro hnd a b1 b2 h1 h2
      simp only [List.map_cons, List.nodup_cons] at hnd
      simp only [List.mem_cons] at h1 h2
      rcases h1 with h1 | h1 <;> rcases h2 with h2 | h2
      · rw [← h1] at h2
        exact (Prod.mk.injEq _ _ _ _).mp h2 |>.2.symm
      · exfalso
        apply hnd.1
        rw [← h1]
        exact List.mem_map.mpr ⟨(a, b2), h2, rfl⟩
      · exfalso
        apply hnd.1
        rw [← h2]
        exact List.mem_map.mpr ⟨(a, b1), h1, rfl⟩
      · exact ih hnd.2 a b1 b2 h1 h2

/-- A successful reverse lookup `descToProg m d = some p` names an actual
pair `(p, d)` of the stat-name map. -/
lemma descToProg_mem (m : List (String × String)) (d p : String)
    (h : descToProg m d = some p) : (p, d) ∈ m := by
  unfold descToProg at h
  cases hf : m.reverse.find? (fun kv => kv.2 = d) with
  | none => rw [hf] at h; simp at h
  | some kv =>
      rw [hf] at h
      simp only [Option.map_some'] at h
      injection h with h1
      have hmem := List.mem_of_find?_eq_some hf
      have hpred := List.find?_some hf
      rw [List.mem_reverse] at hmem
      have hkv : kv = (p, d) := by
        cases kv with
        | mk q e => exact Prod.ext h1 (of_decide_eq_true hpred)
      rw [← hkv]
      exact hmem

/-- With duplicate-free programmatic keys, the reverse lookup is injective:
two descriptive names resolving to the same programmatic key coincide. -/
lemma descToProg_inj (m : List (String × String))
    (hm : (m.map Prod.fst).Nodup) (d1 d2 p : String)
    (h1 : descToProg m d1 = some p) (h2 : descToProg m d2 = some p) :
    d1 = d2 :=
  nodup_keys_unique m hm p d1 d2 (descToProg_mem m d1 p h1)
    (descToProg_mem m d2 p h2)

/-- Membership in the `prog_dict` comprehension: exactly the metric entries
whose descriptive key has a programmatic alias, re-keyed by that alias. -/
lemma progDict_mem (m : List (String × String)) (metrics : List (String × ℚ))
    (p : String) (v : ℚ) :
    (p, v) ∈ progDictOf m metrics ↔
      ∃ d, (d, v) ∈ metrics ∧ descToProg m d = some p := by
  unfold progDictOf
  rw [List.mem_filterMap]
  constructor
  · rintro ⟨⟨d, w⟩, hmem, hf⟩
    rw [Option.map_eq_some'] at hf
    obtain ⟨q, hq, hqe⟩ := hf
    injection hqe with he1 he2
    subst he1
    subst he2
    exact ⟨d, hmem, hq⟩
  · rintro ⟨d, hmem, hf⟩
    exact ⟨(d, v), hmem, by rw [hf]; rfl⟩

/-- C9: for any metrics dictionary (as produced by `_compute_metrics`) and
any stat-name map with duplicate-free keys, `stats("prog")` is the flat
programmatic view, `stats("both")` wraps exactly that same programmatic
view together with the descriptive view (so `stats("both")["prog"]` equals
`stats("prog")` and the two views agree, value for value, on every metric
present in both, modulo the key mapping), and any unrecognized style is the
invalid-argument `ValueError`. -/
theorem C9_stats_views (m : List (String × String))
    (metrics : List (String × ℚ))
    (hm : (m.map Prod.fst).Nodup) (hmet : (metrics.map Prod.fst).Nodup) :
    (statsFrom m metrics "prog" = .ok (.flat (progDictOf m metrics)) ∧
     statsFrom m metrics "both" =
       .ok (.both (progDictOf m metrics) metrics) ∧
     statsFrom m metrics "desc" = .ok (.flat metrics)) ∧
    (∀ d v p, (d, v) ∈ metrics → descToProg m d = some p →
      (p, v) ∈ progDictOf m metrics) ∧
    (∀ p v, (p, v) ∈ progDictOf m metrics →
      ∃ d, descToProg m d = some p ∧ (d, v) ∈ metrics) ∧
    (∀ p v1 v2, (p, v1) ∈ progDictOf m metrics →
      (p, v2) ∈ progDictOf m metrics → v1 = v2) ∧
    (∀ style, style ≠ "desc" → style ≠ "prog" → style ≠ "both" →
      statsFrom m metrics style =
        .error "style must be 'desc', 'prog', or 'both'") := by
  refine ⟨⟨rfl, rfl, rfl⟩, ?_, ?_, ?_, ?_⟩
  · intro d v p hmem hf
    exact (progDict_mem m metrics p v).mpr ⟨d, hmem, hf⟩
  · intro p v hmem
    obtain ⟨d, hd, hf⟩ := (progDict_mem m metrics p v).mp hmem
    exact ⟨d, hf, hd⟩
  · intro p v1 v2 h1 h2
    obtain ⟨d1, hd1, hf1⟩ := (progDict_mem m metrics p v1).mp h1
    obtain ⟨d2, hd2, hf2⟩ := (progDict_mem m metrics p v2).mp h2
    have hd : d1 = d2 := descToProg_inj m hm d1 d2 p hf1 hf2
    subst hd
    exact nodup_keys_unique metrics hmet d1 v1 v2 hd1 hd2
  · intro style h1 h2 h3
    unfold statsFrom
    rw [if_neg h1, if_neg h2, if_neg h3]

/-- C9 witness: the stats-view theorem at the default stat-name map and a
one-entry metrics dictionary, plus the error on an unknown style. -/
theorem C9_witness :
    statsFrom (mergeStatMap []) [("Hit rate", 1 / 2)] "prog" =
      .ok (.flat (progDictOf (mergeStatMap []) [("Hit rate", 1 / 2)])) ∧
    statsFrom (mergeStatMap []) [("Hit rate", 1 / 2)] "median" =
      .error "style must be 'desc', 'prog', or 'both'" := by
  have h := C9_stats_views (mergeStatMap []) [("Hit rate", 1 / 2)]
    (by decide) (by decide)
  exact ⟨h.1.1, h.2.2.2.2 "median" (by decide) (by decide) (by decide)⟩

end Dobyte
